import Mathlib

/-!
Verification of the core-benchmarks code-generation engine against its
specification.  The definitions below are a shallow embedding of the Python
sources under `src/frontend/src/frontend/code_generator/`:

* `blocks.py` — branch model, probability validation, weighted target
  sampling (`Branch`);
* `source_generator.py` — file-system write plan (`SourceGenerator`) and the
  function-to-file partitioner (`FileFunctionMapper`).

Python floats are modelled by exact rationals (`ℚ`); Python dicts and sets by
insertion-ordered association lists; fallible code by `Except`.
-/

namespace CoreBenchmarks

/-! ## Branch model (blocks.py) -/

inductive BranchType where
  | UNKNOWN
  | DIRECT
  | CONDITIONAL_DIRECT
  | INDIRECT
  | CONDITIONAL_INDIRECT
  | DIRECT_CALL
  | INDIRECT_CALL
  | RETURN
  | FALLTHROUGH
deriving DecidableEq, Repr

structure BranchTargetAndProbability where
  target : Option Nat
  probability : ℚ
deriving DecidableEq, Repr

/-- `math.isclose(a, b, rel_tol=1e-03)` (with the default `abs_tol = 0`):
`abs(a-b) <= rel_tol * max(abs(a), abs(b))`, over exact rationals. -/
def isClose (a b : ℚ) : Bool :=
  |a - b| ≤ (1 / 1000) * max |a| |b|

/-- `Branch.validate_probabilities`, returning the final target list instead
of mutating it.  `zipped` is the list built in `Branch.__init__` by zipping
`targets` with `taken_probability`; the sum is taken over the entire
`taken_probability` argument, exactly as in the source. -/
def validate_probabilities (branch_type : BranchType)
    (zipped : List BranchTargetAndProbability) (taken_probability : List ℚ) :
    Except String (List BranchTargetAndProbability) :=
  if branch_type = .FALLTHROUGH ∨ branch_type = .UNKNOWN ∨
      branch_type = .RETURN then
    .ok zipped
  else
    let total := taken_probability.sum
    if isClose total 1 then
      .ok zipped
    else if branch_type = .CONDITIONAL_DIRECT ∨
        branch_type = .CONDITIONAL_INDIRECT then
      -- The rest of the probability is a fallthrough branch
      .ok (zipped ++ [⟨none, 1 - total⟩])
    else
      .error "Sum of probabilities in branch is not 1.0"

structure Branch where
  branch_type : BranchType
  targets : List BranchTargetAndProbability
deriving DecidableEq, Repr

/-- `Branch.__init__`: zip the targets with the probabilities (`zip` stops at
the shorter list), then validate against the full probability list. -/
def mkBranch (branch_type : BranchType) (targets : List Nat)
    (taken_probability : List ℚ) : Except String Branch :=
  let zipped := (targets.zip taken_probability).map
    (fun p => BranchTargetAndProbability.mk (some p.1) p.2)
  (validate_probabilities branch_type zipped taken_probability).map
    (fun ts => Branch.mk branch_type ts)

/-! ### The seeded random source

Modelled from the spec: the single process-wide seeded pseudo-random source
is Python's `random` module, which is external to the repository.  The spec
requires only that `set_seed` fixes the stream and every draw returns a value
in `[0,1)` determined by the seed and the number of draws made so far; we
model the stream with a 64-bit linear congruential generator.  All theorems
below depend only on the draws being a deterministic function of the seed. -/

def lcgNext (x : ℕ) : ℕ :=
  (6364136223846793005 * x + 1442695040888963407) % 2 ^ 64

def lcgIter (seed : ℕ) : ℕ → ℕ
  | 0 => lcgNext seed
  | n + 1 => lcgNext (lcgIter seed n)

structure RandState where
  seed : ℕ
  draws : ℕ
deriving DecidableEq, Repr

/-- `Branch.set_seed`: reset the process-wide stream to a fresh seed. -/
def set_seed (seed : ℕ) : RandState := ⟨seed, 0⟩

/-- `random.random()`: one uniform draw in `[0,1)` from the seeded stream. -/
def randomDraw (st : RandState) : ℚ × RandState :=
  ((lcgIter st.seed st.draws : ℚ) / 2 ^ 64, ⟨st.seed, st.draws + 1⟩)

/-! ### Weighted target sampling -/

/-- The scan loop of `Branch._get_next_target_index`: accumulate
probabilities in declared order and return the first index whose cumulative
probability strictly exceeds `random_value`; `none` is the
`RuntimeError('This should never happen')` branch after the loop. -/
def getNextTargetIndexAux (random_value : ℚ) (seen_values : ℚ) :
    List BranchTargetAndProbability → Option ℕ
  | [] => none
  | branch_target :: rest =>
    let seen' := seen_values + branch_target.probability
    if random_value < seen' then some 0
    else (getNextTargetIndexAux random_value seen' rest).map (· + 1)

/-- `Branch._get_next_target_index` with the drawn value passed explicitly. -/
def getNextTargetIndex (random_value : ℚ) (b : Branch) : Option ℕ :=
  getNextTargetIndexAux random_value 0 b.targets

/-- `Branch._get_next_target_index` including the draw from the stream. -/
def sampleIndex (st : RandState) (b : Branch) : Option ℕ × RandState :=
  let (u, st') := randomDraw st
  (getNextTargetIndex u b, st')

/-- `Branch.get_target_from_index`; the outer `Option` is Python's
`IndexError` on an out-of-range index. -/
def get_target_from_index (b : Branch) (index : ℕ) : Option (Option ℕ) :=
  (b.targets.get? index).map (fun bt => bt.target)

/-- `Branch.next_valid_target` with the drawn value passed explicitly:
sample an index, then fail with `ValueError('Valid target not found')` if the
sampled entry has no concrete target. -/
def next_valid_target (random_value : ℚ) (b : Branch) : Except String ℕ :=
  match getNextTargetIndex random_value b with
  | none => .error "This should never happen"
  | some index =>
    match get_target_from_index b index with
    | none => .error "IndexError"
    | some none => .error "Valid target not found"
    | some (some target) => .ok target

/-- `Branch.next_target_sequence`: `length` successive draws; a failed scan
raises out of the loop. -/
def next_target_sequence (st : RandState) (b : Branch) :
    ℕ → Except String (List ℕ) × RandState
  | 0 => (.ok [], st)
  | n + 1 =>
    let (idx, st') := sampleIndex st b
    match idx with
    | none => (.error "This should never happen", st')
    | some i =>
      match next_target_sequence st' b n with
      | (.ok rest, st'') => (.ok (i :: rest), st'')
      | (.error e, st'') => (.error e, st'')

/-- Sum of the stored probabilities of a target list. -/
def sumProbs (targets : List BranchTargetAndProbability) : ℚ :=
  (targets.map (fun bt => bt.probability)).sum

/-- Cumulative probability of the first `n` entries of a target list. -/
def cumProb (targets : List BranchTargetAndProbability) (n : ℕ) : ℚ :=
  sumProbs (targets.take n)

/-! ## Signature parsing (blocks.py, `Function.get_call_signature`)

`re.search(r'\w+\s+(\w+)', header)` is modelled exactly for this one
pattern: scan for the leftmost position where a nonempty word-character run
is followed by a nonempty whitespace run and a nonempty word-character run;
the capture group is the (greedy) second word run.  For this pattern greedy
matching with backtracking coincides with maximal-run matching because no
character is both a word and a space character. -/

/-- Python `\w` (ASCII): letters, digits, underscore. -/
def isWordChar (c : Char) : Bool :=
  c.isAlphanum || c = '_'

/-- Python `\s` (ASCII): the six whitespace characters. -/
def isSpaceChar (c : Char) : Bool :=
  c = ' ' || c = '\t' || c = '\n' || c = '\r' || c = '\x0b' || c = '\x0c'

/-- Match `\w+\s+(\w+)` anchored at the start of `s`; returns the capture. -/
def matchAt (s : List Char) : Option (List Char) :=
  let w1 := s.takeWhile isWordChar
  if w1.isEmpty then none
  else
    let s1 := s.drop w1.length
    let sp := s1.takeWhile isSpaceChar
    if sp.isEmpty then none
    else
      let s2 := s1.drop sp.length
      let w2 := s2.takeWhile isWordChar
      if w2.isEmpty then none else some w2

/-- `re.search`: try every start position, leftmost first. -/
def reSearchTypeName : List Char → Option (List Char)
  | [] => none
  | c :: rest =>
    match matchAt (c :: rest) with
    | some w => some w
    | none => reSearchTypeName rest

/-- `Function.get_call_signature`: strip the return type off the signature
header; `RuntimeError` when the regex does not match. -/
def get_call_signature (header : String) : Except String String :=
  match reSearchTypeName header.toList with
  | none => .error "Malformed function signature format"
  | some w => .ok (String.mk w)

/-- The spec's "two-token `type name` shape", as matched by `re.search`:
the text contains a nonempty word run, then a nonempty whitespace run, then
a nonempty word run. -/
def HasTypeNameShape (s : List Char) : Prop :=
  ∃ pre w1 sp w2 post, s = pre ++ w1 ++ sp ++ w2 ++ post ∧
    w1 ≠ [] ∧ sp ≠ [] ∧ w2 ≠ [] ∧
    (∀ c ∈ w1, isWordChar c) ∧ (∀ c ∈ sp, isSpaceChar c) ∧
    (∀ c ∈ w2, isWordChar c)

/-! ## The write plan (source_generator.py, `SourceGenerator`)

The file system is modelled as the list of existing paths.  `open(p, 'w')`
creates or truncates `p` and never raises; only
`write_header_import_to_new_file` checks for an existing path first.
`write_function_to_existing_file` opens in append mode and does not change
the set of paths, so it is not modelled. -/

def insertPath (fs : List String) (path : String) : List String :=
  if path ∈ fs then fs else fs ++ [path]

/-- `SourceGenerator.write_main`: `open(main_path, 'w')`, no existence
check. -/
def write_main (fs : List String) (main_file : String) :
    Except String (List String) :=
  .ok (insertPath fs main_file)

/-- `SourceGenerator.write_headers`: `open(header_path, 'w')`, no existence
check. -/
def write_headers (fs : List String) (header_file : String) :
    Except String (List String) :=
  .ok (insertPath fs header_file)

/-- `SourceGenerator.write_makefile`: `open(makefile_path, 'w')`, no
existence check. -/
def write_makefile (fs : List String) (makefile : String) :
    Except String (List String) :=
  .ok (insertPath fs makefile)

/-- `SourceGenerator.write_header_import_to_new_file`: raises
`RuntimeError(f'{path} already exists')` when the path exists. -/
def write_header_import_to_new_file (fs : List String) (path : String) :
    Except String (List String) :=
  if path ∈ fs then .error (path ++ " already exists") else .ok (fs ++ [path])

/-- The per-function-file part of `SourceGenerator.write_functions`: each
file is created once via `write_header_import_to_new_file`. -/
def write_function_files (fs : List String) :
    List String → Except String (List String)
  | [] => .ok fs
  | path :: rest =>
    match write_header_import_to_new_file fs path with
    | .error e => .error e
    | .ok fs' => write_function_files fs' rest

/-- `SourceGenerator.write_files`: main, headers, function units, then the
makefile. -/
def write_files (fs : List String) (main_file header_file makefile : String)
    (function_files : List String) : Except String (List String) :=
  match write_main fs main_file with
  | .error e => .error e
  | .ok fs1 =>
    match write_headers fs1 header_file with
    | .error e => .error e
    | .ok fs2 =>
      match write_function_files fs2 function_files with
      | .error e => .error e
      | .ok fs3 => write_makefile fs3 makefile

/-! ## The file partitioner (source_generator.py, `FileFunctionMapper`)

File names `f'{n}.c'` are modelled by their counter value `n`.  Python dicts
are insertion-ordered association lists (`setKey` overwrites in place,
appends fresh keys at the end); the per-file function sets only ever receive
fresh elements, so they are modelled as append-lists. -/

/-- A callgraph as the partitioner sees it: the function ids of
`callgraph.functions` in insertion order, and
`direct_call_targets_for_function` (whose entries may be `None`). -/
structure Callgraph where
  funIds : List ℕ
  directCallTargets : ℕ → List (Option ℕ)

def lookupFn {α : Type} : List (ℕ × α) → ℕ → Option α
  | [], _ => none
  | (k, v) :: rest, key => if k = key then some v else lookupFn rest key

def setKey {α : Type} : List (ℕ × α) → ℕ → α → List (ℕ × α)
  | [], k, v => [(k, v)]
  | (k', v') :: rest, k, v =>
    if k' = k then (k', v) :: rest else (k', v') :: setKey rest k v

/-- `file_to_function_mapping[file].add(name)` on a `defaultdict(set)`. -/
def addToFile : List (ℕ × List ℕ) → ℕ → ℕ → List (ℕ × List ℕ)
  | [], file, name => [(file, [name])]
  | (f, fs) :: rest, file, name =>
    if f = file then (f, fs ++ [name]) :: rest
    else (f, fs) :: addToFile rest file name

/-- `for name in functions: result[file].add(name)`. -/
def addAllToFile (result : List (ℕ × List ℕ)) (file : ℕ) (names : List ℕ) :
    List (ℕ × List ℕ) :=
  names.foldl (fun r n => addToFile r file n) result

/-- All functions assigned by a file-to-functions mapping. -/
def elems (m : List (ℕ × List ℕ)) : List ℕ :=
  (m.map Prod.snd).flatten

/-- Termination measure for the grouping work-list loop: functions (from the
callgraph or the work-list) not yet visited. -/
def groupMeasure (cg : Callgraph) (visited toVisit : List ℕ) : ℕ :=
  ((cg.funIds.toFinset ∪ toVisit.toFinset) \ visited.toFinset).card

/-- The work-list loop of
`FileFunctionMapper._group_functions_by_control_flow`. -/
def groupLoop (cg : Callgraph) (visited : List ℕ) (f2f : List (ℕ × ℕ))
    (fmap : List (ℕ × List ℕ)) (counter : ℕ) (toVisit : List ℕ) :
    List (ℕ × List ℕ) :=
  match toVisit with
  | [] => fmap
  | function_name :: rest =>
    if function_name ∈ visited then
      groupLoop cg visited f2f fmap counter rest
    else
      let visited' := function_name :: visited
      -- if absent, assign a fresh file via `_next_function_file`
      let assigned :=
        match lookupFn f2f function_name with
        | some f => (f, f2f, counter)
        | none => (counter, setKey f2f function_name counter, counter + 1)
      let function_file := assigned.1
      let fmap' := addToFile fmap function_file function_name
      -- known, unvisited DIRECT_CALL targets, in declaration order
      let newTargets := (cg.directCallTargets function_name).filterMap
        (fun t =>
          match t with
          | none => none
          | some t =>
            if t ∈ cg.funIds ∧ t ∉ visited' then some t else none)
      let f2f' := newTargets.foldl
        (fun m t => setKey m t function_file) assigned.2.1
      -- each `appendleft` reverses the iteration order at the deque front
      groupLoop cg visited' f2f' fmap' assigned.2.2 (newTargets.reverse ++ rest)
termination_by (groupMeasure cg visited toVisit, toVisit.length)
decreasing_by
  · apply Prod.Lex.right'
    · apply Finset.card_le_card
      intro x hx
      simp only [groupMeasure, Finset.mem_sdiff, Finset.mem_union,
        List.mem_toFinset, List.mem_cons] at hx ⊢
      exact ⟨hx.1.imp_right Or.inr, hx.2⟩
    · simp
  · apply Prod.Lex.left
    apply Finset.card_lt_card
    rw [Finset.ssubset_iff_of_subset]
    · refine ⟨function_name, ?_, ?_⟩
      · simp only [groupMeasure, Finset.mem_sdiff, Finset.mem_union,
          List.mem_toFinset, List.mem_cons, true_or, or_true, true_and]
        assumption
      · simp [groupMeasure]
    · intro x hx
      simp only [groupMeasure, Finset.mem_sdiff, Finset.mem_union,
        List.mem_toFinset, List.mem_append, List.mem_reverse,
        List.mem_filterMap, List.mem_cons] at hx ⊢
      obtain ⟨hx1, hx2⟩ := hx
      refine ⟨?_, fun h => hx2 (Or.inr h)⟩
      rcases hx1 with h | h
      · exact Or.inl h
      · rcases h with h | h
        · obtain ⟨t, _, ht⟩ := h
          cases t with
          | none => simp at ht
          | some t =>
            simp only [Option.dite_none_right_eq_some, Option.some.injEq] at ht
            obtain ⟨hcond, rfl⟩ := ht
            exact Or.inl hcond.1
        · exact Or.inr (Or.inr h)

/-- `FileFunctionMapper._group_functions_by_control_flow`: the work-list is
seeded with every function id. -/
def groupFunctionsByControlFlow (cg : Callgraph) : List (ℕ × List ℕ) :=
  groupLoop cg [] [] [] 0 cg.funIds

/-- `math.ceil(len(self.callgraph.functions) / splits)`. -/
def functionsPerSplit (total splits : ℕ) : ℕ :=
  (Int.ceil ((total : ℚ) / (splits : ℚ))).toNat

/-- The while-loop of `FileFunctionMapper._split_function_groups`.  The
per-file budget is `per1 + 1`: the loop is only ever entered with a positive
`functions_per_split` (a zero budget with a nonempty group would make the
Python loop spin forever, and no caller can reach that state). -/
def splitLoop (per1 : ℕ) (groups : List (List ℕ)) (count currentFile : ℕ)
    (result : List (ℕ × List ℕ)) (counter : ℕ) : List (ℕ × List ℕ) :=
  match groups with
  | [] => result
  | functions :: rest =>
    if count + functions.length ≤ per1 + 1 then
      splitLoop per1 rest (count + functions.length) currentFile
        (addAllToFile result currentFile functions) counter
    else
      splitLoop per1 ((functions.drop (per1 + 1)) :: rest) 0 counter
        (addAllToFile result currentFile (functions.take (per1 + 1)))
        (counter + 1)
termination_by 2 * ((groups.map List.length).sum) + groups.length + count
decreasing_by
  all_goals
    simp only [List.map_cons, List.sum_cons, List.length_cons,
      List.length_drop]
    omega

/-- `FileFunctionMapper._split_function_groups`: files are cleared, file
`0.c` is allocated (counter becomes 1), then the groups are replayed.  When
`functions_per_split = 0` every group reachable from the public API is
empty and the loop adds nothing, leaving the result dict empty. -/
def splitFunctionGroups (total splits : ℕ) (groups : List (List ℕ)) :
    List (ℕ × List ℕ) :=
  match functionsPerSplit total splits with
  | 0 => []
  | p + 1 => splitLoop p groups 0 0 [] 1

/-- `FileFunctionMapper.create_file_to_functions_mapping`; `num_files = none`
or `some 0` is falsy in `if num_files:`. -/
def createFileToFunctionsMapping (cg : Callgraph) (num_files : Option ℕ) :
    List (ℕ × List ℕ) :=
  let result := groupFunctionsByControlFlow cg
  match num_files with
  | none => result
  | some n =>
    if n = 0 then result
    else splitFunctionGroups cg.funIds.length n (result.map Prod.snd)

/-! ## Lemmas about the branch sampler -/

theorem sumProbs_cons (e : BranchTargetAndProbability)
    (l : List BranchTargetAndProbability) :
    sumProbs (e :: l) = e.probability + sumProbs l := by
  simp [sumProbs]

theorem cumProb_zero (l : List BranchTargetAndProbability) : cumProb l 0 = 0 := by
  simp [cumProb, sumProbs]

theorem cumProb_cons_succ (e : BranchTargetAndProbability)
    (l : List BranchTargetAndProbability) (n : ℕ) :
    cumProb (e :: l) (n + 1) = e.probability + cumProb l n := by
  simp [cumProb, sumProbs]

/-- The scan succeeds whenever the drawn value is below the remaining mass. -/
theorem getNextTargetIndexAux_isSome (l : List BranchTargetAndProbability)
    (u : ℚ) :
    ∀ seen : ℚ, seen ≤ u → u < seen + sumProbs l →
      (getNextTargetIndexAux u seen l).isSome = true := by
  induction l with
  | nil =>
    intro seen h1 h2
    rw [sumProbs] at h2
    simp at h2
    exact absurd h2 (not_lt.mpr h1)
  | cons e rest ih =>
    intro seen h1 h2
    rw [getNextTargetIndexAux]
    by_cases h : u < seen + e.probability
    · simp [h]
    · rw [if_neg h]
      have hrec := ih (seen + e.probability) (not_lt.mp h)
        (by rw [sumProbs_cons] at h2; linarith)
      cases haux : getNextTargetIndexAux u (seen + e.probability) rest with
      | none => rw [haux] at hrec; simp at hrec
      | some k => rfl

/-- The scan returns the first index whose cumulative probability strictly
exceeds the drawn value. -/
theorem getNextTargetIndexAux_eq_some (l : List BranchTargetAndProbability)
    (u : ℚ) :
    ∀ (seen : ℚ) (i : ℕ), getNextTargetIndexAux u seen l = some i →
      i < l.length ∧ u < seen + cumProb l (i + 1) ∧
        ∀ j < i, ¬ u < seen + cumProb l (j + 1) := by
  induction l with
  | nil =>
    intro seen i h
    rw [getNextTargetIndexAux] at h
    cases h
  | cons e rest ih =>
    intro seen i h
    rw [getNextTargetIndexAux] at h
    by_cases hlt : u < seen + e.probability
    · rw [if_pos hlt] at h
      cases h
      refine ⟨by simp, ?_, fun j hj => absurd hj (Nat.not_lt_zero j)⟩
      rw [cumProb_cons_succ, cumProb_zero]
      linarith
    · rw [if_neg hlt] at h
      cases hrec : getNextTargetIndexAux u (seen + e.probability) rest with
      | none => rw [hrec] at h; cases h
      | some i' =>
        rw [hrec] at h
        simp at h
        subst h
        obtain ⟨hlen, hex, hfirst⟩ := ih (seen + e.probability) i' hrec
        refine ⟨by simpa using Nat.succ_lt_succ hlen, ?_, ?_⟩
        · rw [cumProb_cons_succ]
          linarith
        · intro j hj
          cases j with
          | zero =>
            rw [cumProb_cons_succ, cumProb_zero]
            intro hcon
            exact hlt (by linarith)
          | succ j' =>
            rw [cumProb_cons_succ]
            have := hfirst j' (by omega)
            intro hcon
            exact this (by linarith)

theorem lcgNext_lt (x : ℕ) : lcgNext x < 2 ^ 64 :=
  Nat.mod_lt _ (by norm_num)

theorem lcgIter_lt (seed n : ℕ) : lcgIter seed n < 2 ^ 64 := by
  cases n with
  | zero => exact lcgNext_lt seed
  | succ n => exact lcgNext_lt (lcgIter seed n)

/-- Every draw from the seeded stream lies in `[0, 1)`. -/
theorem randomDraw_mem_Ico (st : RandState) :
    0 ≤ (randomDraw st).1 ∧ (randomDraw st).1 < 1 := by
  constructor
  · exact div_nonneg (by positivity) (by positivity)
  · rw [randomDraw, div_lt_one (by positivity)]
    exact_mod_cast lcgIter_lt st.seed st.draws

/-! ## Claim theorems: the branch model -/

/-- Claim C1, counterexample: a DIRECT branch whose declared probability sum
is 0.9995 passes validation (well inside the 1e-3 relative tolerance), yet
for the draw u = 0.9997 ∈ [0,1) the scan falls off the end of the target
list and reaches the `RuntimeError('This should never happen')` branch, so
that branch is reachable for validated branches. -/
theorem sample_error_branch_reachable :
    mkBranch .DIRECT [7] [9995/10000] =
      .ok ⟨.DIRECT, [⟨some 7, 9995/10000⟩]⟩ ∧
    (0 : ℚ) ≤ 9997/10000 ∧ (9997/10000 : ℚ) < 1 ∧
    getNextTargetIndex (9997/10000) ⟨.DIRECT, [⟨some 7, 9995/10000⟩]⟩ =
      none := by
  refine ⟨?_, by norm_num, by norm_num, ?_⟩
  · simp only [mkBranch, validate_probabilities]
    rw [if_neg (by simp), if_pos (by norm_num [isClose, abs, max_def])]
    rfl
  · rw [getNextTargetIndex, getNextTargetIndexAux,
      if_neg (by norm_num), getNextTargetIndexAux]
    rfl

/-- Claim C1 (amended): every draw from the seeded source lies in `[0,1)`;
the scan of `_get_next_target_index` returns the index of the first entry
whose cumulative probability strictly exceeds the drawn value `u` (ties
resolving to the earliest declared entry), and an index is guaranteed
whenever `u` is below the sum of the stored probabilities — in particular
for every `u ∈ [0,1)` when the stored probabilities sum to at least 1, as
they do for CONDITIONAL branches completed with the implicit fallthrough
entry.  (For a validated branch whose declared sum is within tolerance but
strictly below 1 the error branch is reachable, per the counterexample.) -/
theorem sample_index_first_exceeding (b : Branch) (u : ℚ) :
    (∀ st : RandState, 0 ≤ (randomDraw st).1 ∧ (randomDraw st).1 < 1) ∧
    (0 ≤ u → u < sumProbs b.targets →
      (getNextTargetIndex u b).isSome = true) ∧
    (∀ i, getNextTargetIndex u b = some i →
      i < b.targets.length ∧ u < cumProb b.targets (i + 1) ∧
        ∀ j < i, ¬ u < cumProb b.targets (j + 1)) := by
  refine ⟨randomDraw_mem_Ico, fun h0 hu => ?_, fun i hi => ?_⟩
  · exact getNextTargetIndexAux_isSome b.targets u 0 h0 (by linarith)
  · have := getNextTargetIndexAux_eq_some b.targets u 0 i hi
    simpa using this

/-- Witness for C1's amended theorem at a concrete branch and draw. -/
theorem sample_index_first_exceeding_witness :
    (getNextTargetIndex (1/2)
      ⟨.DIRECT, [⟨some 5, 3/10⟩, ⟨some 6, 7/10⟩]⟩).isSome = true :=
  (sample_index_first_exceeding
    ⟨.DIRECT, [⟨some 5, 3/10⟩, ⟨some 6, 7/10⟩]⟩ (1/2)).2.1
    (by norm_num) (by norm_num [sumProbs])

/-- Claim C2: a CONDITIONAL branch whose declared sum is outside the 1e-3
relative tolerance is constructed successfully with exactly one no-target
entry `(None, 1 - sum)` appended after the declared entries, no declared
probability being rescaled. -/
theorem conditional_branch_appends_fallthrough (bt : BranchType)
    (targets : List ℕ) (ps : List ℚ)
    (hbt : bt = .CONDITIONAL_DIRECT ∨ bt = .CONDITIONAL_INDIRECT)
    (hsum : isClose ps.sum 1 = false) :
    mkBranch bt targets ps =
      .ok ⟨bt, ((targets.zip ps).map
          (fun p => BranchTargetAndProbability.mk (some p.1) p.2)) ++
        [⟨none, 1 - ps.sum⟩]⟩ := by
  rcases hbt with rfl | rfl <;>
  · simp only [mkBranch, validate_probabilities]
    rw [if_neg (by simp), if_neg (by simp [hsum]), if_pos (by simp)]
    rfl

/-- Witness for C2: the spec's concrete example
`targets=[A,B], probabilities=[0.3,0.3]` on a CONDITIONAL_DIRECT branch. -/
theorem conditional_branch_appends_fallthrough_witness :
    mkBranch .CONDITIONAL_DIRECT [1, 2] [3/10, 3/10] =
      .ok ⟨.CONDITIONAL_DIRECT,
        [⟨some 1, 3/10⟩, ⟨some 2, 3/10⟩, ⟨none, 2/5⟩]⟩ := by
  have h := conditional_branch_appends_fallthrough .CONDITIONAL_DIRECT
    [1, 2] [3/10, 3/10] (Or.inl rfl) (by norm_num [isClose, abs, max_def])
  rw [h]
  norm_num

/-- Claim C3: a non-exempt, non-CONDITIONAL branch with an out-of-tolerance
probability sum is a construction error; a sum passing the tolerance check
constructs successfully; FALLTHROUGH, UNKNOWN and RETURN branches skip the
check entirely. -/
theorem probability_sum_validation (bt : BranchType) (targets : List ℕ)
    (ps : List ℚ) :
    (bt ≠ .FALLTHROUGH → bt ≠ .UNKNOWN → bt ≠ .RETURN →
      bt ≠ .CONDITIONAL_DIRECT → bt ≠ .CONDITIONAL_INDIRECT →
      isClose ps.sum 1 = false →
      mkBranch bt targets ps =
        .error "Sum of probabilities in branch is not 1.0") ∧
    (isClose ps.sum 1 = true →
      mkBranch bt targets ps =
        .ok ⟨bt, (targets.zip ps).map
          (fun p => BranchTargetAndProbability.mk (some p.1) p.2)⟩) ∧
    ((bt = .FALLTHROUGH ∨ bt = .UNKNOWN ∨ bt = .RETURN) →
      mkBranch bt targets ps =
        .ok ⟨bt, (targets.zip ps).map
          (fun p => BranchTargetAndProbability.mk (some p.1) p.2)⟩) := by
  refine ⟨fun h1 h2 h3 h4 h5 hsum => ?_, fun hsum => ?_, fun hex => ?_⟩
  · simp only [mkBranch, validate_probabilities]
    rw [if_neg (by simp [h1, h2, h3]), if_neg (by simp [hsum]),
      if_neg (by simp [h4, h5])]
    rfl
  · simp only [mkBranch, validate_probabilities]
    by_cases hex : bt = .FALLTHROUGH ∨ bt = .UNKNOWN ∨ bt = .RETURN
    · rw [if_pos hex]; rfl
    · rw [if_neg hex, if_pos (by simp [hsum])]; rfl
  · simp only [mkBranch, validate_probabilities]
    rw [if_pos hex]
    rfl

/-- Witness for C3: a DIRECT branch summing to 0.9 is rejected, one summing
to 1.0 (as `[0.3, 0.3, 0.4]`) is accepted, and a FALLTHROUGH branch skips
the check even with an out-of-tolerance sum. -/
theorem probability_sum_validation_witness :
    mkBranch .DIRECT [1, 2, 3] [3/10, 3/10, 3/10] =
      .error "Sum of probabilities in branch is not 1.0" ∧
    mkBranch .DIRECT [1, 2, 3] [3/10, 3/10, 2/5] =
      .ok ⟨.DIRECT, [⟨some 1, 3/10⟩, ⟨some 2, 3/10⟩, ⟨some 3, 2/5⟩]⟩ ∧
    mkBranch .FALLTHROUGH [] [1/2] = .ok ⟨.FALLTHROUGH, []⟩ := by
  refine ⟨?_, ?_, ?_⟩
  · exact (probability_sum_validation .DIRECT [1, 2, 3] [3/10, 3/10, 3/10]).1
      (by decide) (by decide) (by decide) (by decide) (by decide)
      (by norm_num [isClose, abs, max_def])
  · have h := (probability_sum_validation .DIRECT [1, 2, 3]
      [3/10, 3/10, 2/5]).2.1 (by norm_num [isClose, abs, max_def])
    rw [h]
    rfl
  · exact (probability_sum_validation .FALLTHROUGH [] [1/2]).2.2
      (Or.inl rfl)

/-- Claim C4: under the same seed, two branches constructed from identical
target and probability lists produce identical `next_target_sequence 16`
outputs — the sequence is a deterministic function of the seed and the
declared data. -/
theorem sequence_deterministic_under_seed (s : ℕ) (bt : BranchType)
    (targets : List ℕ) (ps : List ℚ) (b1 b2 : Branch)
    (h1 : mkBranch bt targets ps = .ok b1)
    (h2 : mkBranch bt targets ps = .ok b2) :
    next_target_sequence (set_seed s) b1 16 =
      next_target_sequence (set_seed s) b2 16 := by
  rw [h1] at h2
  cases h2
  rfl

/-- Witness for C4 at seed 0 and a concrete DIRECT branch. -/
theorem sequence_deterministic_under_seed_witness :
    next_target_sequence (set_seed 0)
        ⟨.DIRECT, [⟨some 1, 1/2⟩, ⟨some 2, 1/2⟩]⟩ 16 =
      next_target_sequence (set_seed 0)
        ⟨.DIRECT, [⟨some 1, 1/2⟩, ⟨some 2, 1/2⟩]⟩ 16 := by
  have h : mkBranch .DIRECT [1, 2] [1/2, 1/2] =
      .ok ⟨.DIRECT, [⟨some 1, 1/2⟩, ⟨some 2, 1/2⟩]⟩ := by
    simp only [mkBranch, validate_probabilities]
    rw [if_neg (by simp), if_pos (by norm_num [isClose, abs, max_def])]
    rfl
  exact sequence_deterministic_under_seed 0 .DIRECT [1, 2] [1/2, 1/2] _ _ h h

/-- Claim C8: `next_valid_target` returns the sampled entry's target id when
that entry carries a concrete target, and raises
`ValueError('Valid target not found')` exactly when the sampled entry is the
no-target fallthrough entry. -/
theorem next_valid_target_spec (b : Branch) (u : ℚ) (i : ℕ)
    (e : BranchTargetAndProbability)
    (hi : getNextTargetIndex u b = some i)
    (he : b.targets.get? i = some e) :
    (∀ t, e.target = some t → next_valid_target u b = .ok t) ∧
    (next_valid_target u b = .error "Valid target not found" ↔
      e.target = none) := by
  simp only [next_valid_target, get_target_from_index, hi, he]
  cases he' : e.target with
  | none => simp [he']
  | some t => simp [he']

/-- Witness for C8: sampling index 1 of a CONDITIONAL_DIRECT branch whose
second entry is the implicit fallthrough produces the error. -/
theorem next_valid_target_spec_witness :
    next_valid_target (3/4)
        ⟨.CONDITIONAL_DIRECT, [⟨some 3, 1/2⟩, ⟨none, 1/2⟩]⟩ =
      .error "Valid target not found" := by
  have h := next_valid_target_spec
    ⟨.CONDITIONAL_DIRECT, [⟨some 3, 1/2⟩, ⟨none, 1/2⟩]⟩ (3/4) 1 ⟨none, 1/2⟩
    ?_ rfl
  · exact h.2.mpr rfl
  · rw [getNextTargetIndex, getNextTargetIndexAux, if_neg (by norm_num),
      getNextTargetIndexAux]
    rw [if_pos (by norm_num)]
    rfl

/-- Claim C10: construction stores only the zip of targets with
probabilities (the first `min` of the two lengths many pairs) while the sum
validation runs over the entire probability list; for every successfully
constructed branch the zipped pairs are a prefix of the stored targets. -/
theorem zip_truncation (bt : BranchType) (targets : List ℕ) (ps : List ℚ) :
    (isClose ps.sum 1 = true →
      mkBranch bt targets ps =
        .ok ⟨bt, (targets.zip ps).map
          (fun p => BranchTargetAndProbability.mk (some p.1) p.2)⟩ ∧
      ((targets.zip ps).map
        (fun p => BranchTargetAndProbability.mk (some p.1) p.2)).length =
          min targets.length ps.length) ∧
    (∀ b, mkBranch bt targets ps = .ok b →
      ((targets.zip ps).map
        (fun p => BranchTargetAndProbability.mk (some p.1) p.2)) <+:
          b.targets) := by
  constructor
  · intro hsum
    constructor
    · simp only [mkBranch, validate_probabilities]
      by_cases hex : bt = .FALLTHROUGH ∨ bt = .UNKNOWN ∨ bt = .RETURN
      · rw [if_pos hex]; rfl
      · rw [if_neg hex, if_pos (by simp [hsum])]; rfl
    · simp [List.length_zip]
  · intro b hb
    simp only [mkBranch, validate_probabilities] at hb
    split at hb
    · cases hb; exact List.prefix_refl _
    · split at hb
      · cases hb; exact List.prefix_refl _
      · split at hb
        · cases hb; exact List.prefix_append _ _
        · cases hb

/-- Witness for C10: the concrete example — a DIRECT branch with one target
and probabilities `[0.5, 0.5]` constructs successfully and stores the single
pair `(1, 0.5)`, the sum being taken over both probabilities. -/
theorem zip_truncation_witness :
    mkBranch .DIRECT [1] [1/2, 1/2] = .ok ⟨.DIRECT, [⟨some 1, 1/2⟩]⟩ := by
  have h := (zip_truncation .DIRECT [1] [1/2, 1/2]).1
    (by norm_num [isClose, abs, max_def])
  rw [h.1]
  rfl

/-! ## Claim theorems: the write plan -/

/-- A run of the per-function-file writes succeeds exactly when the
function-file paths are pairwise distinct and none pre-exists. -/
theorem write_function_files_ok_iff (paths : List String) :
    ∀ fs : List String,
      (∃ fs', write_function_files fs paths = .ok fs') ↔
        paths.Nodup ∧ ∀ p ∈ paths, p ∉ fs := by
  induction paths with
  | nil => intro fs; simp [write_function_files]
  | cons p rest ih =>
    intro fs
    rw [write_function_files, write_header_import_to_new_file]
    by_cases hp : p ∈ fs
    · rw [if_pos hp]
      simp only [List.nodup_cons, List.mem_cons]
      constructor
      · rintro ⟨fs', hfs'⟩; cases hfs'
      · rintro ⟨-, hall⟩
        exact absurd hp (hall p (Or.inl rfl))
    · rw [if_neg hp, ih (fs ++ [p])]
      simp only [List.nodup_cons, List.mem_cons]
      constructor
      · rintro ⟨hnd, hall⟩
        refine ⟨⟨fun hpr => ?_, hnd⟩, ?_⟩
        · exact (hall p hpr) (by simp)
        · rintro q (rfl | hq)
          · exact hp
          · intro hqfs
            exact (hall q hq) (by simp [hqfs])
      · rintro ⟨⟨hpr, hnd⟩, hall⟩
        refine ⟨hnd, fun q hq => ?_⟩
        intro hmem
        rcases List.mem_append.mp hmem with hqfs | hq1
        · exact (hall q (Or.inr hq)) hqfs
        · rw [List.mem_singleton] at hq1
          subst hq1
          exact hpr hq

/-- Claim C7, counterexample: a generation run with `main.c` already present
in the output directory succeeds — `write_main` opens the existing file in
write mode and silently overwrites it instead of raising. -/
theorem write_plan_overwrites_counterexample :
    write_files ["main.c"] "main.c" "headers.h" "Makefile" ["0.c"] =
      .ok ["main.c", "headers.h", "0.c", "Makefile"] ∧
    write_main ["main.c"] "main.c" = .ok ["main.c"] := by
  constructor <;> rfl

/-- Claim C7 (amended): only the function-unit files are protected by the
no-clobber guard — `write_header_import_to_new_file` raises exactly when its
path already exists, while the run as a whole succeeds if and only if the
function-unit paths are distinct and none pre-exists; pre-existing main,
header or build files are silently overwritten (`open(path, 'w')` with no
existence check). -/
theorem no_clobber_only_function_units (fs : List String)
    (main_file header_file makefile : String)
    (function_files : List String) :
    ((∃ fs', write_files fs main_file header_file makefile function_files =
        .ok fs') ↔
      function_files.Nodup ∧ ∀ p ∈ function_files,
        p ∉ insertPath (insertPath fs main_file) header_file) ∧
    (∀ p ∈ fs, write_header_import_to_new_file fs p =
      .error (p ++ " already exists")) ∧
    (∀ p, p ∉ fs → write_header_import_to_new_file fs p = .ok (fs ++ [p])) := by
  refine ⟨?_, fun p hp => if_pos hp, fun p hp => if_neg hp⟩
  rw [← write_function_files_ok_iff function_files
    (insertPath (insertPath fs main_file) header_file)]
  simp only [write_files, write_main, write_headers, write_makefile]
  cases hw : write_function_files
      (insertPath (insertPath fs main_file) header_file) function_files with
  | error e =>
    constructor
    · rintro ⟨fs', hfs'⟩; cases hfs'
    · rintro ⟨fs', hfs'⟩; cases hfs'
  | ok fs3 =>
    constructor
    · intro; exact ⟨fs3, rfl⟩
    · intro; exact ⟨insertPath fs3 makefile, rfl⟩

/-- Witness for C7's amended theorem: the guard fires on an existing
function-unit path. -/
theorem no_clobber_only_function_units_witness :
    write_header_import_to_new_file ["0.c"] "0.c" =
      .error ("0.c" ++ " already exists") :=
  (no_clobber_only_function_units ["0.c"] "main.c" "headers.h" "Makefile"
    []).2.1 "0.c" (by simp)

/-! ## Lemmas about the signature regex -/

theorem space_not_word {c : Char} (h : isSpaceChar c = true) :
    isWordChar c = false := by
  simp only [isSpaceChar, Bool.or_eq_true, decide_eq_true_eq] at h
  have h6 : c = ' ' ∨ c = '\t' ∨ c = '\n' ∨ c = '\r' ∨ c = '\x0b' ∨
      c = '\x0c' := by tauto
  rcases h6 with rfl | rfl | rfl | rfl | rfl | rfl <;> decide

theorem word_not_space {c : Char} (h : isWordChar c = true) :
    isSpaceChar c = false := by
  cases hs : isSpaceChar c with
  | false => rfl
  | true => rw [space_not_word hs] at h; cases h

theorem takeWhile_all_append (p : Char → Bool) (l l' : List Char)
    (h : ∀ c ∈ l, p c = true) :
    (l ++ l').takeWhile p = l ++ l'.takeWhile p := by
  induction l with
  | nil => simp
  | cons c rest ih =>
    rw [List.cons_append, List.takeWhile_cons,
      if_pos (h c (List.mem_cons_self c rest)),
      ih (fun x hx => h x (List.mem_cons_of_mem c hx)), List.cons_append]

theorem drop_length_takeWhile (p : Char → Bool) (l : List Char) :
    l.drop (l.takeWhile p).length = l.dropWhile p := by
  induction l with
  | nil => rfl
  | cons c rest ih =>
    by_cases h : p c <;>
      simp [List.takeWhile_cons, List.dropWhile_cons, h, ih]

/-- `\w+\s+(\w+)` matches at the start of `w1 ++ sp ++ w2 ++ post` whenever
`w1`, `sp`, `w2` are nonempty runs of word, space and word characters. -/
theorem matchAt_isSome_of_runs (w1 sp w2 post : List Char)
    (hw1 : w1 ≠ []) (hsp : sp ≠ []) (hw2 : w2 ≠ [])
    (aw1 : ∀ c ∈ w1, isWordChar c = true)
    (asp : ∀ c ∈ sp, isSpaceChar c = true)
    (aw2 : ∀ c ∈ w2, isWordChar c = true) :
    (matchAt (w1 ++ sp ++ w2 ++ post)).isSome = true := by
  obtain ⟨s0, sp', rfl⟩ := List.exists_cons_of_ne_nil hsp
  obtain ⟨c0, w2', rfl⟩ := List.exists_cons_of_ne_nil hw2
  have hs0 : isWordChar s0 = false :=
    space_not_word (asp s0 (List.mem_cons_self s0 sp'))
  have hc0 : isSpaceChar c0 = false :=
    word_not_space (aw2 c0 (List.mem_cons_self c0 w2'))
  have e1 : (w1 ++ (s0 :: sp') ++ (c0 :: w2') ++ post).takeWhile isWordChar
      = w1 := by
    rw [List.append_assoc, List.append_assoc, takeWhile_all_append _ _ _ aw1,
      List.cons_append, List.takeWhile_cons, if_neg (by simp [hs0]),
      List.append_nil]
  have e2 : (w1 ++ (s0 :: sp') ++ (c0 :: w2') ++ post).drop w1.length
      = (s0 :: sp') ++ ((c0 :: w2') ++ post) := by
    rw [List.append_assoc, List.append_assoc, List.drop_left]
  have e3' : ((c0 :: w2') ++ post).takeWhile isSpaceChar = [] := by
    rw [List.cons_append, List.takeWhile_cons, if_neg (by simp [hc0])]
  have e3 : ((s0 :: sp') ++ ((c0 :: w2') ++ post)).takeWhile isSpaceChar
      = s0 :: sp' := by
    rw [takeWhile_all_append _ _ _ asp, e3', List.append_nil]
  have e4 : ((s0 :: sp') ++ ((c0 :: w2') ++ post)).drop (s0 :: sp').length
      = (c0 :: w2') ++ post := List.drop_left _ _
  simp only [matchAt, e1, e2, e3, e4]
  rw [if_neg (by simp [List.isEmpty_iff, hw1]),
    if_neg (by simp [List.isEmpty_iff])]
  rw [List.cons_append, List.takeWhile_cons,
    if_pos (aw2 c0 (List.mem_cons_self c0 w2'))]
  simp

/-- On an exact `type name` text the match captures the second word run. -/
theorem matchAt_exact (w1 sp w2 : List Char)
    (hw1 : w1 ≠ []) (hsp : sp ≠ []) (hw2 : w2 ≠ [])
    (aw1 : ∀ c ∈ w1, isWordChar c = true)
    (asp : ∀ c ∈ sp, isSpaceChar c = true)
    (aw2 : ∀ c ∈ w2, isWordChar c = true) :
    matchAt (w1 ++ sp ++ w2) = some w2 := by
  obtain ⟨s0, sp', rfl⟩ := List.exists_cons_of_ne_nil hsp
  obtain ⟨c0, w2', rfl⟩ := List.exists_cons_of_ne_nil hw2
  have hs0 : isWordChar s0 = false :=
    space_not_word (asp s0 (List.mem_cons_self s0 sp'))
  have hc0 : isSpaceChar c0 = false :=
    word_not_space (aw2 c0 (List.mem_cons_self c0 w2'))
  have e1 : (w1 ++ (s0 :: sp') ++ (c0 :: w2')).takeWhile isWordChar = w1 := by
    rw [List.append_assoc, takeWhile_all_append _ _ _ aw1,
      List.cons_append, List.takeWhile_cons, if_neg (by simp [hs0]),
      List.append_nil]
  have e2 : (w1 ++ (s0 :: sp') ++ (c0 :: w2')).drop w1.length
      = (s0 :: sp') ++ (c0 :: w2') := by
    rw [List.append_assoc, List.drop_left]
  have e3 : ((s0 :: sp') ++ (c0 :: w2')).takeWhile isSpaceChar = s0 :: sp' := by
    rw [takeWhile_all_append _ _ _ asp, List.cons_append, List.takeWhile_cons,
      if_neg (by simp [hc0]), List.append_nil]
  have e4 : ((s0 :: sp') ++ (c0 :: w2')).drop (s0 :: sp').length
      = c0 :: w2' := List.drop_left _ _
  have e5 : (c0 :: w2').takeWhile isWordChar = c0 :: w2' :=
    List.takeWhile_eq_self_iff.mpr (by simpa using aw2)
  simp only [matchAt, e1, e2, e3, e4, e5]
  rw [if_neg (by simp [List.isEmpty_iff, hw1]),
    if_neg (by simp [List.isEmpty_iff]),
    if_neg (by simp [List.isEmpty_iff])]

/-- A successful anchored match decomposes the text into word, space and
word runs followed by a remainder. -/
theorem matchAt_some_decomp (s w : List Char) (h : matchAt s = some w) :
    ∃ w1 sp post, s = w1 ++ sp ++ w ++ post ∧ w1 ≠ [] ∧ sp ≠ [] ∧ w ≠ [] ∧
      (∀ c ∈ w1, isWordChar c = true) ∧ (∀ c ∈ sp, isSpaceChar c = true) ∧
      (∀ c ∈ w, isWordChar c = true) := by
  simp only [matchAt] at h
  by_cases h1 : (s.takeWhile isWordChar).isEmpty
  · rw [if_pos h1] at h; cases h
  · rw [if_neg h1] at h
    by_cases h2 : ((s.drop (s.takeWhile isWordChar).length).takeWhile
        isSpaceChar).isEmpty
    · rw [if_pos h2] at h; cases h
    · rw [if_neg h2] at h
      by_cases h3 : (((s.drop (s.takeWhile isWordChar).length).drop
          ((s.drop (s.takeWhile isWordChar).length).takeWhile
            isSpaceChar).length).takeWhile isWordChar).isEmpty
      · rw [if_pos h3] at h; cases h
      · rw [if_neg h3] at h
        cases h
        refine ⟨s.takeWhile isWordChar,
          (s.drop (s.takeWhile isWordChar).length).takeWhile isSpaceChar,
          ((s.drop (s.takeWhile isWordChar).length).drop
            ((s.drop (s.takeWhile isWordChar).length).takeWhile
              isSpaceChar).length).dropWhile isWordChar,
          ?_, by simpa [List.isEmpty_iff] using h1,
          by simpa [List.isEmpty_iff] using h2,
          by simpa [List.isEmpty_iff] using h3,
          fun c hc => List.mem_takeWhile_imp hc,
          fun c hc => List.mem_takeWhile_imp hc,
          fun c hc => List.mem_takeWhile_imp hc⟩
        rw [List.append_assoc, List.append_assoc]
        rw [drop_length_takeWhile isWordChar s]
        rw [drop_length_takeWhile isSpaceChar (s.dropWhile isWordChar)]
        rw [List.takeWhile_append_dropWhile,
          List.takeWhile_append_dropWhile, List.takeWhile_append_dropWhile]

theorem reSearch_cons (c : Char) (rest : List Char) :
    reSearchTypeName (c :: rest) =
      match matchAt (c :: rest) with
      | some w => some w
      | none => reSearchTypeName rest := rfl

theorem reSearch_isSome_of_shape (s : List Char) (h : HasTypeNameShape s) :
    (reSearchTypeName s).isSome = true := by
  obtain ⟨pre, w1, sp, w2, post, rfl, hw1, hsp, hw2, aw1, asp, aw2⟩ := h
  induction pre with
  | nil =>
    obtain ⟨c0, w1', rfl⟩ := List.exists_cons_of_ne_nil hw1
    have hms := matchAt_isSome_of_runs (c0 :: w1') sp w2 post (by simp)
      hsp hw2 aw1 asp aw2
    simp only [List.nil_append, List.cons_append, List.append_assoc]
      at hms ⊢
    rw [reSearch_cons]
    cases hm : matchAt (c0 :: (w1' ++ (sp ++ (w2 ++ post)))) with
    | none => rw [hm] at hms; cases hms
    | some w => rfl
  | cons c pre' ih =>
    simp only [List.cons_append, List.append_assoc] at ih ⊢
    rw [reSearch_cons]
    cases hm : matchAt (c :: (pre' ++ (w1 ++ (sp ++ (w2 ++ post))))) with
    | none => exact ih
    | some w => rfl

theorem reSearch_some_shape (s : List Char) :
    ∀ w, reSearchTypeName s = some w → HasTypeNameShape s := by
  induction s with
  | nil => intro w h; cases h
  | cons c rest ih =>
    intro w h
    rw [reSearch_cons] at h
    cases hm : matchAt (c :: rest) with
    | some w' =>
      obtain ⟨w1, sp, post, hdec, hw1, hsp, hw', aw1, asp, aw'⟩ :=
        matchAt_some_decomp (c :: rest) w' hm
      exact ⟨[], w1, sp, w', post, by simpa using hdec, hw1, hsp, hw',
        aw1, asp, aw'⟩
    | none =>
      rw [hm] at h
      obtain ⟨pre, w1, sp, w2, post, hdec, hw1, hsp, hw2, aw1, asp, aw2⟩ :=
        ih w h
      exact ⟨c :: pre, w1, sp, w2, post, by rw [hdec]; rfl, hw1, hsp, hw2,
        aw1, asp, aw2⟩

/-- Claim C9: resolving a callable name returns the second token of the
signature text (the leading type token is stripped), and it fails with the
format error exactly when the text does not contain a two-token
`type name` shape (a word run, whitespace, then a word run). -/
theorem get_call_signature_spec :
    (∀ w1 sp w2 : List Char, w1 ≠ [] → sp ≠ [] → w2 ≠ [] →
      (∀ c ∈ w1, isWordChar c = true) → (∀ c ∈ sp, isSpaceChar c = true) →
      (∀ c ∈ w2, isWordChar c = true) →
      get_call_signature (String.mk (w1 ++ sp ++ w2)) =
        .ok (String.mk w2)) ∧
    (∀ header : String,
      (∃ e, get_call_signature header = .error e) ↔
        ¬ HasTypeNameShape header.toList) := by
  constructor
  · intro w1 sp w2 hw1 hsp hw2 aw1 asp aw2
    have hm := matchAt_exact w1 sp w2 hw1 hsp hw2 aw1 asp aw2
    obtain ⟨c0, w1', rfl⟩ := List.exists_cons_of_ne_nil hw1
    have hs : reSearchTypeName ((c0 :: w1') ++ sp ++ w2) = some w2 := by
      simp only [List.cons_append, List.append_assoc] at hm ⊢
      rw [reSearch_cons, hm]
    unfold get_call_signature
    rw [show (String.mk ((c0 :: w1') ++ sp ++ w2)).toList =
      (c0 :: w1') ++ sp ++ w2 from rfl, hs]
  · intro header
    constructor
    · rintro ⟨e, he⟩ hshape
      have hms := reSearch_isSome_of_shape header.toList hshape
      unfold get_call_signature at he
      cases hm : reSearchTypeName header.toList with
      | none => rw [hm] at hms; cases hms
      | some w => rw [hm] at he; cases he
    · intro hns
      cases hm : reSearchTypeName header.toList with
      | none =>
        exact ⟨"Malformed function signature format",
          by unfold get_call_signature; rw [hm]⟩
      | some w => exact absurd (reSearch_some_shape header.toList w hm) hns

/-- Witness for C9: `void f` resolves to `f`. -/
theorem get_call_signature_spec_witness :
    get_call_signature (String.mk (['v', 'o', 'i', 'd'] ++ [' '] ++ ['f'])) =
      .ok (String.mk ['f']) :=
  get_call_signature_spec.1 ['v', 'o', 'i', 'd'] [' '] ['f']
    (by decide) (by decide) (by decide) (by decide) (by decide) (by decide)

/-! ## Lemmas about the file partitioner: grouping pass -/

theorem elems_cons (p : ℕ × List ℕ) (m : List (ℕ × List ℕ)) :
    elems (p :: m) = p.2 ++ elems m := by
  simp [elems]

theorem elems_addToFile (m : List (ℕ × List ℕ)) (file name : ℕ) :
    (elems (addToFile m file name)).Perm (name :: elems m) := by
  induction m with
  | nil => simp [addToFile, elems]
  | cons p rest ih =>
    obtain ⟨f, fs⟩ := p
    rw [addToFile]
    by_cases h : f = file
    · rw [if_pos h, elems_cons, elems_cons]
      exact (List.perm_append_singleton name fs).append_right (elems rest)
    · rw [if_neg h, elems_cons, elems_cons]
      exact (ih.append_left fs).trans List.perm_middle

/-- Every target surviving the known-and-unvisited filter is a known
function outside the visited set. -/
theorem mem_targetFilter (cg : Callgraph) (vs : List ℕ)
    (l : List (Option ℕ)) (x : ℕ)
    (hx : x ∈ l.filterMap (fun t =>
      match t with
      | none => none
      | some t => if _h : t ∈ cg.funIds ∧ t ∉ vs then some t else none)) :
    x ∈ cg.funIds ∧ x ∉ vs := by
  simp only [List.mem_filterMap] at hx
  obtain ⟨t, _, ht⟩ := hx
  cases t with
  | none => simp at ht
  | some t =>
    simp only [Option.dite_none_right_eq_some, Option.some.injEq] at ht
    obtain ⟨hc, rfl⟩ := ht
    exact hc

/-- Loop invariant of the grouping pass: the functions assigned so far are
exactly the visited set, and finally every known function is assigned
exactly once. -/
theorem groupLoop_elems_spec (cg : Callgraph) (visited : List ℕ)
    (f2f : List (ℕ × ℕ)) (fmap : List (ℕ × List ℕ)) (counter : ℕ)
    (toVisit : List ℕ)
    (hperm : (elems fmap).Perm visited)
    (hv : visited.Nodup)
    (hvs : ∀ x ∈ visited, x ∈ cg.funIds)
    (hw : ∀ x ∈ toVisit, x ∈ cg.funIds)
    (hcov : ∀ x ∈ cg.funIds, x ∈ visited ∨ x ∈ toVisit) :
    ∃ V : List ℕ,
      (elems (groupLoop cg visited f2f fmap counter toVisit)).Perm V ∧
      V.Nodup ∧ (∀ x ∈ V, x ∈ cg.funIds) ∧ ∀ x ∈ cg.funIds, x ∈ V := by
  induction visited, f2f, fmap, counter, toVisit using groupLoop.induct cg
  case case1 visited f2f fmap counter =>
    rw [groupLoop]
    exact ⟨visited, hperm, hv, hvs,
      fun x hx => (hcov x hx).resolve_right (fun h => (List.not_mem_nil x) h)⟩
  case case2 visited f2f fmap counter name rest hmem ih =>
    rw [groupLoop, if_pos hmem]
    exact ih hperm hv hvs
      (fun x hx => hw x (List.mem_cons_of_mem _ hx))
      (fun x hx => by
        rcases hcov x hx with h | h
        · exact Or.inl h
        · rcases List.mem_cons.mp h with rfl | h2
          · exact Or.inl hmem
          · exact Or.inr h2)
  case case3 visited f2f fmap counter name rest hmem visitedL assignedL
      fileL fmapL newTL f2fL ih =>
    rw [groupLoop, if_neg hmem]
    have hnamemem : name ∈ cg.funIds := hw name (List.mem_cons_self _ _)
    apply ih
    · exact (elems_addToFile fmap _ name).trans (hperm.cons name)
    · exact List.nodup_cons.mpr ⟨hmem, hv⟩
    · intro x hx
      rcases List.mem_cons.mp hx with rfl | h2
      · exact hnamemem
      · exact hvs x h2
    · intro x hx
      rcases List.mem_append.mp hx with h | h
      · exact (mem_targetFilter cg _ _ x (List.mem_reverse.mp h)).1
      · exact hw x (List.mem_cons_of_mem _ h)
    · intro x hx
      rcases hcov x hx with h | h
      · exact Or.inl (List.mem_cons_of_mem _ h)
      · rcases List.mem_cons.mp h with rfl | h2
        · exact Or.inl (List.mem_cons_self _ _)
        · exact Or.inr (List.mem_append_right _ h2)

/-- The grouping pass produces a total partition of the function ids. -/
theorem group_functions_partition (cg : Callgraph) (hnd : cg.funIds.Nodup) :
    (elems (groupFunctionsByControlFlow cg)).Perm cg.funIds := by
  obtain ⟨V, hp, hVnd, hVsub, hVsup⟩ :=
    groupLoop_elems_spec cg [] [] [] 0 cg.funIds (by simp [elems])
      List.nodup_nil (by simp) (fun x hx => hx) (fun x hx => Or.inr hx)
  rw [groupFunctionsByControlFlow]
  refine hp.trans (List.perm_of_nodup_nodup_toFinset_eq hVnd hnd ?_)
  ext x
  simp only [List.mem_toFinset]
  exact ⟨hVsub x, hVsup x⟩

/-! ## Lemmas about the file partitioner: split pass -/

theorem addToFile_fresh (r : List (ℕ × List ℕ)) (file name : ℕ)
    (h : ∀ p ∈ r, p.1 ≠ file) :
    addToFile r file name = r ++ [(file, [name])] := by
  induction r with
  | nil => rfl
  | cons p rest ih =>
    obtain ⟨f, fs⟩ := p
    rw [addToFile, if_neg (h (f, fs) (List.mem_cons_self _ _)),
      ih (fun q hq => h q (List.mem_cons_of_mem _ hq)), List.cons_append]

theorem addToFile_last (r : List (ℕ × List ℕ)) (file : ℕ) (cur : List ℕ)
    (name : ℕ) (h : ∀ p ∈ r, p.1 ≠ file) :
    addToFile (r ++ [(file, cur)]) file name =
      r ++ [(file, cur ++ [name])] := by
  induction r with
  | nil => simp [addToFile]
  | cons p rest ih =>
    obtain ⟨f, fs⟩ := p
    rw [List.cons_append, addToFile,
      if_neg (h (f, fs) (List.mem_cons_self _ _)),
      ih (fun q hq => h q (List.mem_cons_of_mem _ hq)), List.cons_append]

theorem addAllToFile_last (r : List (ℕ × List ℕ)) (file : ℕ)
    (names : List ℕ) :
    ∀ cur : List ℕ, (∀ p ∈ r, p.1 ≠ file) →
      addAllToFile (r ++ [(file, cur)]) file names =
        r ++ [(file, cur ++ names)] := by
  induction names with
  | nil => intro cur _; simp [addAllToFile]
  | cons n ns ih =>
    intro cur h
    have step : addAllToFile (r ++ [(file, cur)]) file (n :: ns) =
        addAllToFile (addToFile (r ++ [(file, cur)]) file n) file ns := rfl
    rw [step, addToFile_last r file cur n h, ih (cur ++ [n]) h]
    simp

theorem addAllToFile_fresh (r : List (ℕ × List ℕ)) (file : ℕ)
    (names : List ℕ) (h : ∀ p ∈ r, p.1 ≠ file) (hne : names ≠ []) :
    addAllToFile r file names = r ++ [(file, names)] := by
  cases names with
  | nil => exact absurd rfl hne
  | cons n ns =>
    have step : addAllToFile r file (n :: ns) =
        addAllToFile (addToFile r file n) file ns := rfl
    rw [step, addToFile_fresh r file n h, addAllToFile_last r file ns [n] h]
    simp

/-- Loop invariant of the split pass: files other than the current one hold
at most twice the ideal count, the current file holds exactly the running
count, and the concatenation of all assigned functions is preserved. -/
theorem splitLoop_spec (per1 : ℕ) (groups : List (List ℕ))
    (count currentFile : ℕ) (result : List (ℕ × List ℕ)) (counter : ℕ)
    (front : List (ℕ × List ℕ)) (cur : List ℕ)
    (hshape : result = front ++ [(currentFile, cur)] ∨
      (result = front ∧ cur = []))
    (hfresh : ∀ p ∈ front, p.1 ≠ currentFile)
    (hcnt : count = cur.length)
    (hcount : count ≤ per1 + 1)
    (hkeys : ∀ p ∈ result, p.1 < counter)
    (hcf : currentFile < counter)
    (hbound : ∀ p ∈ front, p.2.length ≤ 2 * (per1 + 1)) :
    (∀ p ∈ splitLoop per1 groups count currentFile result counter,
      p.2.length ≤ 2 * (per1 + 1)) ∧
    ((splitLoop per1 groups count currentFile result counter).map
      Prod.snd).flatten = (result.map Prod.snd).flatten ++ groups.flatten := by
  induction groups, count, currentFile, result, counter
    using splitLoop.induct per1 generalizing front cur
  case case1 count currentFile result counter =>
    rw [splitLoop]
    constructor
    · intro p hp
      rcases hshape with hshape | ⟨hshape, -⟩
      · subst hshape
        rcases List.mem_append.mp hp with hd | hl
        · exact hbound p hd
        · rw [List.mem_singleton] at hl
          subst hl
          simp only []
          omega
      · exact hbound p (hshape ▸ hp)
    · simp
  case case2 count currentFile result counter functions rest hfit ih =>
    rw [splitLoop, if_pos hfit]
    rcases hshape with hshape | ⟨hshape, hcur⟩
    · have hres2 : addAllToFile result currentFile functions =
          front ++ [(currentFile, cur ++ functions)] := by
        rw [hshape]; exact addAllToFile_last front currentFile functions cur
          hfresh
      obtain ⟨ihb, ihj⟩ := ih front (cur ++ functions) (Or.inl hres2) hfresh
        (by rw [hcnt, List.length_append]) hfit
        (by
          intro p hp
          rw [hres2] at hp
          rcases List.mem_append.mp hp with hd | hl
          · exact hkeys p (hshape ▸ List.mem_append_left _ hd)
          · rw [List.mem_singleton] at hl
            subst hl
            exact hcf)
        hcf hbound
      refine ⟨ihb, ?_⟩
      rw [ihj, hres2, hshape]
      simp
    · by_cases hfe : functions = []
      · obtain ⟨ihb, ihj⟩ := ih front []
          (Or.inr ⟨by rw [hfe]; exact hshape, rfl⟩) hfresh
          (by simp [hfe, hcnt, hcur]) (by simpa [hfe] using hcount)
          (by rw [hfe]; exact hkeys) hcf hbound
        refine ⟨ihb, ?_⟩
        rw [ihj, hfe]
        simp [addAllToFile]
      · have hres2 : addAllToFile result currentFile functions =
            front ++ [(currentFile, functions)] := by
          rw [hshape]
          exact addAllToFile_fresh front currentFile functions hfresh hfe
        obtain ⟨ihb, ihj⟩ := ih front functions (Or.inl hres2) hfresh
          (by rw [hcnt, hcur]; simp) hfit
          (by
            intro p hp
            rw [hres2] at hp
            rcases List.mem_append.mp hp with hd | hl
            · exact hkeys p (by rw [hshape]; exact hd)
            · rw [List.mem_singleton] at hl
              subst hl
              exact hcf)
          hcf hbound
        refine ⟨ihb, ?_⟩
        rw [ihj, hres2, hshape]
        simp
  case case3 count currentFile result counter functions rest hnofit ih =>
    rw [splitLoop, if_neg hnofit]
    have htklen : (functions.take (per1 + 1)).length ≤ per1 + 1 := by
      rw [List.length_take]; omega
    rcases hshape with hshape | ⟨hshape, hcur⟩
    · have hres2 : addAllToFile result currentFile
          (functions.take (per1 + 1)) =
          front ++ [(currentFile, cur ++ functions.take (per1 + 1))] := by
        rw [hshape]
        exact addAllToFile_last front currentFile _ cur hfresh
      have hkeys2 : ∀ p ∈ front ++ [(currentFile, cur ++
          functions.take (per1 + 1))], p.1 < counter := by
        intro p hp
        rcases List.mem_append.mp hp with hd | hl
        · exact hkeys p (hshape ▸ List.mem_append_left _ hd)
        · rw [List.mem_singleton] at hl
          subst hl
          exact hcf
      obtain ⟨ihb, ihj⟩ := ih
        (front ++ [(currentFile, cur ++ functions.take (per1 + 1))]) []
        (Or.inr ⟨hres2, rfl⟩)
        (fun p hp => Nat.ne_of_lt (hkeys2 p hp))
        rfl (by omega)
        (by
          intro p hp
          rw [hres2] at hp
          exact Nat.lt_succ_of_lt (hkeys2 p hp))
        (Nat.lt_succ_self counter)
        (by
          intro p hp
          rcases List.mem_append.mp hp with hd | hl
          · exact hbound p hd
          · rw [List.mem_singleton] at hl
            subst hl
            simp only [List.length_append]
            omega)
      refine ⟨ihb, ?_⟩
      rw [ihj, hres2, hshape]
      have hglue : functions.take (per1 + 1) ++
          (functions.drop (per1 + 1) ++ rest.flatten) =
          functions ++ rest.flatten := by
        rw [← List.append_assoc, List.take_append_drop]
      simp only [List.map_append, List.map_cons, List.map_nil,
        List.flatten_append, List.flatten_cons, List.flatten_nil,
        List.append_nil, List.append_assoc]
      rw [hglue]
    · have hfne : functions.take (per1 + 1) ≠ [] := by
        intro htk
        rcases List.take_eq_nil_iff.mp htk with h0 | h0
        · cases h0
        · rw [h0] at hnofit
          simp at hnofit
          rw [hcnt, hcur] at hnofit
          simp at hnofit
      have hres2 : addAllToFile result currentFile
          (functions.take (per1 + 1)) =
          front ++ [(currentFile, functions.take (per1 + 1))] := by
        rw [hshape]
        exact addAllToFile_fresh front currentFile _ hfresh hfne
      have hkeys2 : ∀ p ∈ front ++ [(currentFile,
          functions.take (per1 + 1))], p.1 < counter := by
        intro p hp
        rcases List.mem_append.mp hp with hd | hl
        · exact hkeys p (by rw [hshape]; exact hd)
        · rw [List.mem_singleton] at hl
          subst hl
          exact hcf
      obtain ⟨ihb, ihj⟩ := ih
        (front ++ [(currentFile, functions.take (per1 + 1))]) []
        (Or.inr ⟨hres2, rfl⟩)
        (fun p hp => Nat.ne_of_lt (hkeys2 p hp))
        rfl (by omega)
        (by
          intro p hp
          rw [hres2] at hp
          exact Nat.lt_succ_of_lt (hkeys2 p hp))
        (Nat.lt_succ_self counter)
        (by
          intro p hp
          rcases List.mem_append.mp hp with hd | hl
          · exact hbound p hd
          · rw [List.mem_singleton] at hl
            subst hl
            simp only []
            omega)
      refine ⟨ihb, ?_⟩
      rw [ihj, hres2, hshape]
      have hglue : functions.take (per1 + 1) ++
          (functions.drop (per1 + 1) ++ rest.flatten) =
          functions ++ rest.flatten := by
        rw [← List.append_assoc, List.take_append_drop]
      simp only [List.map_append, List.map_cons, List.map_nil,
        List.flatten_append, List.flatten_cons, List.flatten_nil,
        List.append_nil, List.append_assoc]
      rw [hglue]

theorem functionsPerSplit_pos (total splits : ℕ) (hs : 0 < splits)
    (ht : 0 < total) : 0 < functionsPerSplit total splits := by
  unfold functionsPerSplit
  have hq : (0 : ℚ) < (total : ℚ) / (splits : ℚ) :=
    div_pos (by exact_mod_cast ht) (by exact_mod_cast hs)
  have hc : 0 < ⌈(total : ℚ) / (splits : ℚ)⌉ := Int.ceil_pos.mpr hq
  omega

/-- The split pass: every emitted file holds at most twice the ideal
per-file count, and the concatenation of the emitted files equals the
concatenation of the incoming groups (groups are only split, never
reordered). -/
theorem splitFunctionGroups_spec (total splits : ℕ)
    (groups : List (List ℕ)) (hs : 0 < splits)
    (ht : total = (groups.map List.length).sum) :
    (∀ p ∈ splitFunctionGroups total splits groups,
      p.2.length ≤ 2 * functionsPerSplit total splits) ∧
    ((splitFunctionGroups total splits groups).map Prod.snd).flatten =
      groups.flatten := by
  rw [splitFunctionGroups]
  cases hper : functionsPerSplit total splits with
  | zero =>
    have htz : total = 0 := by
      by_contra h0
      have := functionsPerSplit_pos total splits hs
        (Nat.pos_of_ne_zero h0)
      omega
    have hflat : groups.flatten = [] := by
      apply List.length_eq_zero.mp
      rw [List.length_flatten]
      omega
    exact ⟨fun p hp => absurd hp (List.not_mem_nil p), by simp [hflat]⟩
  | succ p =>
    obtain ⟨hb, hj⟩ := splitLoop_spec p groups 0 0 [] 1 [] []
      (Or.inr ⟨rfl, rfl⟩) (fun q hq => absurd hq (List.not_mem_nil q)) rfl
      (by omega) (fun q hq => absurd hq (List.not_mem_nil q)) Nat.one_pos
      (fun q hq => absurd hq (List.not_mem_nil q))
    refine ⟨fun q hq => ?_, by simpa using hj⟩
    have := hb q hq
    omega

/-! ## Claim theorems: the file partitioner -/

/-- Claim C5: for every callgraph and every optional requested file count,
the file-to-functions mapping is a total partition of the function id set —
the functions assigned across all files are a permutation of the known
function ids (no gaps, no duplicates) — and the partitioner is a total
function (it raises no error). -/
theorem partitioner_total_partition (cg : Callgraph)
    (hnd : cg.funIds.Nodup) (num_files : Option ℕ) :
    (elems (createFileToFunctionsMapping cg num_files)).Perm cg.funIds := by
  have hg := group_functions_partition cg hnd
  rw [createFileToFunctionsMapping.eq_def]
  cases num_files with
  | none => exact hg
  | some n =>
    by_cases hn : n = 0
    · simp only [hn, if_pos rfl]
      exact hg
    · simp only [if_neg hn]
      have ht : cg.funIds.length =
          (((groupFunctionsByControlFlow cg).map Prod.snd).map
            List.length).sum := by
        rw [← List.length_flatten, ← hg.length_eq]
        rfl
      have hjoin := (splitFunctionGroups_spec cg.funIds.length n
        ((groupFunctionsByControlFlow cg).map Prod.snd)
        (Nat.pos_of_ne_zero hn) ht).2
      show (List.map Prod.snd (splitFunctionGroups cg.funIds.length n
        ((groupFunctionsByControlFlow cg).map Prod.snd))).flatten.Perm
        cg.funIds
      rw [hjoin]
      exact hg

/-- Witness for C5 at a concrete three-function callgraph with a requested
file count of 2. -/
theorem partitioner_total_partition_witness :
    (elems (createFileToFunctionsMapping
      ⟨[1, 2, 3], fun n => if n = 1 then [some 2] else []⟩
      (some 2))).Perm [1, 2, 3] :=
  partitioner_total_partition
    ⟨[1, 2, 3], fun n => if n = 1 then [some 2] else []⟩ (by decide) (some 2)

/-- Claim C6, counterexample: with five functions split over a requested two
files, the ideal per-file count is `ceil(5/2) = 3`, yet replaying the groups
`[[1,2,3],[4,5]]` puts all five functions into file `0.c`: when the second
group overflows, its first `ideal` elements are appended to the current file
on top of the three already there, so the file exceeds the ideal count. -/
theorem split_pass_exceeds_ideal_counterexample :
    functionsPerSplit 5 2 = 3 ∧
    splitFunctionGroups 5 2 [[1, 2, 3], [4, 5]] = [(0, [1, 2, 3, 4, 5])] ∧
    ([1, 2, 3, 4, 5] : List ℕ).length = 5 := by
  have hper : functionsPerSplit 5 2 = 3 := by
    have hc : ⌈((5 : ℕ) : ℚ) / ((2 : ℕ) : ℚ)⌉ = (3 : ℤ) := by
      push_cast
      rw [Int.ceil_eq_iff]
      norm_num
    unfold functionsPerSplit
    rw [hc]
    rfl
  refine ⟨hper, ?_, rfl⟩
  rw [splitFunctionGroups, hper]
  show splitLoop 2 [[1, 2, 3], [4, 5]] 0 0 [] 1 = [(0, [1, 2, 3, 4, 5])]
  rw [splitLoop, if_pos (by decide)]
  show splitLoop 2 [[4, 5]] 3 0 [(0, [1, 2, 3])] 1 = [(0, [1, 2, 3, 4, 5])]
  rw [splitLoop, if_neg (by decide)]
  show splitLoop 2 [[]] 0 1 [(0, [1, 2, 3, 4, 5])] 2 = [(0, [1, 2, 3, 4, 5])]
  rw [splitLoop, if_pos (by decide)]
  show splitLoop 2 [] 0 1 [(0, [1, 2, 3, 4, 5])] 2 = [(0, [1, 2, 3, 4, 5])]
  rw [splitLoop]

/-- Claim C6 (amended): the ideal per-file count is `ceil(total / N)`; the
split pass replays the pass-1 groups in order, packing a whole group into
the current file only while the running count stays within the ideal; when
a group would overflow, it is split at index `ideal`: its first `ideal`
functions are appended to the current — possibly already partly filled —
file, so a file can hold up to twice the ideal count (but never more), and
the remainder starts the next file; groups are never reordered, only split:
the concatenation of the emitted files equals the concatenation of the
incoming groups. -/
theorem split_pass_spec (total splits : ℕ) (groups : List (List ℕ))
    (hs : 0 < splits) (ht : total = (groups.map List.length).sum) :
    (∀ p ∈ splitFunctionGroups total splits groups,
      p.2.length ≤ 2 * functionsPerSplit total splits) ∧
    ((splitFunctionGroups total splits groups).map Prod.snd).flatten =
      groups.flatten :=
  splitFunctionGroups_spec total splits groups hs ht

/-- Witness for C6's amended theorem at a concrete split. -/
theorem split_pass_spec_witness :
    ((splitFunctionGroups 4 2 [[1, 2], [3, 4]]).map Prod.snd).flatten =
      [[1, 2], [3, 4]].flatten :=
  (split_pass_spec 4 2 [[1, 2], [3, 4]] (by decide) (by decide)).2

end CoreBenchmarks
